import Mathlib

/-!
Verification of the odds-normalization and opportunity-detection engine of the
polyarb repository, as a shallow embedding in Lean 4.

Conventions of the embedding:
* Python floats are modelled as exact rationals (`ℚ`); Python ints as `ℤ`.
* Python's `round` (banker's rounding, round-half-to-even) is `pyRound`.
* Functions that can raise are embedded in `Except String`; the string is a
  label for the exception raised by the source.
* `pandas.sort_values` computes a stable ascending argsort of the key column
  (numpy's introsort degenerates to a stable insertion sort on the small
  frames this program builds) and, for `ascending=False`, reverses that
  ascending order; the embedding models this as
  `(List.insertionSort keyLe rows).reverse`.
-/

namespace Polyarb

/-- Python's built-in `round` on an exact value: round half to even. -/
def pyRound (q : ℚ) : ℤ :=
  if q - ⌊q⌋ < 1/2 then ⌊q⌋
  else if 1/2 < q - ⌊q⌋ then ⌊q⌋ + 1
  else if ⌊q⌋ % 2 = 0 then ⌊q⌋ else ⌊q⌋ + 1

/-- Python's `round(x, 2)`: round to two decimal places. -/
def round2 (q : ℚ) : ℚ := (pyRound (q * 100) : ℚ) / 100

/-- `utils.american_odds_to_probability` / `sandbox.american_odds_to_probability`:
`100/(odds+100)` for positive odds, `abs(odds)/(abs(odds)+100)` otherwise. -/
def american_odds_to_probability (odds : ℤ) : ℚ :=
  if odds > 0 then 100 / ((odds : ℚ) + 100)
  else |(odds : ℚ)| / (|(odds : ℚ)| + 100)

/-- `utils.probability_to_american_odds`: raises `ValueError` unless
`0 < probability < 1`; favorites (`p ≥ 0.5`) map to `round(-100*(p/(1-p)))`,
underdogs to `round(100*((1-p)/p))`. -/
def probability_to_american_odds (p : ℚ) : Except String ℤ :=
  if ¬ (0 < p ∧ p < 1) then .error "ValueError"
  else if 1/2 ≤ p then .ok (pyRound (-100 * (p / (1 - p))))
  else .ok (pyRound (100 * ((1 - p) / p)))

/-- `utils.kelly_criterion`: `max(0, p - ((1 - p) / b))`. -/
def kelly_criterion (p b : ℚ) : ℚ := max 0 (p - (1 - p) / b)

/-- `utils.should_wager` / `sandbox.should_wager`. -/
def should_wager (book_odds polymarket_odds : ℤ) : Bool :=
  if book_odds < 0 ∧ polymarket_odds > book_odds then true
  else if book_odds > 0 ∧ polymarket_odds > book_odds then true
  else false

/-- |pyRound q - q| ≤ 1/2 for every rational q. -/
lemma abs_pyRound_sub_le (q : ℚ) : |(pyRound q : ℚ) - q| ≤ 1/2 := by
  have h0 : (⌊q⌋ : ℚ) ≤ q := Int.floor_le q
  have h1 : q < ⌊q⌋ + 1 := Int.lt_floor_add_one q
  unfold pyRound
  split_ifs <;> rw [abs_le] <;> constructor <;> push_cast <;> linarith

/-- C1: `should_wager` returns true exactly when
`(bookOdds < 0 ∧ marketOddsEquivalent > bookOdds) ∨ (bookOdds > 0 ∧
marketOddsEquivalent > bookOdds)`, and false otherwise; in particular, for
book odds +120 and a market-equivalent of −122 it returns false. -/
theorem C1_should_wager_rule :
    (∀ b m : ℤ, should_wager b m = true ↔ ((b < 0 ∧ m > b) ∨ (b > 0 ∧ m > b)))
    ∧ should_wager 120 (-122) = false := by
  constructor
  · intro b m
    unfold should_wager
    split_ifs with h1 h2
    · simp [h1]
    · simp [h2]
    · simp [h1, h2]
  · decide

/-- C5 counterexample: `american_odds_to_probability` applied to odds exactly 0
returns the numeric value 0 (the non-positive branch `|0|/(|0|+100)`), so it
does not fail with an error: the function has no error path at all. -/
theorem C5_counterexample_zero_returns_value :
    american_odds_to_probability 0 = 0 := by
  unfold american_odds_to_probability
  norm_num

/-- C5 (amended): applied to odds exactly 0 the conversion returns the numeric
value 0 rather than raising; every nonzero odds value yields a probability
strictly inside (0,1), so 0 is the one degenerate output. -/
theorem C5_amended_zero_is_degenerate :
    american_odds_to_probability 0 = 0
    ∧ ∀ odds : ℤ, odds ≠ 0 →
        0 < american_odds_to_probability odds ∧ american_odds_to_probability odds < 1 := by
  constructor
  · unfold american_odds_to_probability; norm_num
  · intro odds hne
    unfold american_odds_to_probability
    split_ifs with hpos
    · have h1 : (1 : ℚ) ≤ (odds : ℚ) := by exact_mod_cast hpos
      constructor
      · positivity
      · rw [div_lt_one (by linarith)]
        linarith
    · have hneg : odds < 0 := by omega
      have hq : (odds : ℚ) < 0 := by exact_mod_cast hneg
      have hq1 : (odds : ℚ) ≤ -1 := by
        have : odds ≤ -1 := by omega
        exact_mod_cast this
      have h1 : (1 : ℚ) ≤ |(odds : ℚ)| := by
        rw [abs_of_neg hq]
        linarith
      constructor
      · positivity
      · rw [div_lt_one (by linarith)]
        linarith

/-- C5 witness: the amended theorem evaluated at odds −110. -/
theorem C5_amended_witness :
    ((-110 : ℤ) ≠ 0)
    ∧ (0 < american_odds_to_probability (-110) ∧ american_odds_to_probability (-110) < 1) :=
  ⟨by decide, C5_amended_zero_is_degenerate.2 (-110) (by decide)⟩

/-- C6: for p ∈ [0,1] and b > 0, `kelly_criterion p b = max 0 (p - (1-p)/b)` is
never negative and vanishes exactly when `p ≤ 1/(1+b)`. -/
theorem C6_kelly_nonneg_zero_iff (p b : ℚ) (hp0 : 0 ≤ p) (hp1 : p ≤ 1) (hb : 0 < b) :
    0 ≤ kelly_criterion p b ∧ (kelly_criterion p b = 0 ↔ p ≤ 1 / (1 + b)) := by
  have h1b : (0 : ℚ) < 1 + b := by linarith
  refine ⟨le_max_left _ _, ?_⟩
  unfold kelly_criterion
  rw [max_eq_left_iff, sub_nonpos, le_div_iff₀ h1b, le_div_iff₀ hb]
  constructor <;> intro h <;> nlinarith

/-- C6 witness: the theorem evaluated at p = 1/2, b = 2. -/
theorem C6_kelly_witness :
    ((0 : ℚ) ≤ 1/2 ∧ (1 : ℚ)/2 ≤ 1 ∧ (0 : ℚ) < 2)
    ∧ (0 ≤ kelly_criterion (1/2) 2
        ∧ (kelly_criterion (1/2) 2 = 0 ↔ (1 : ℚ)/2 ≤ 1 / (1 + 2))) :=
  ⟨⟨by norm_num, by norm_num, by norm_num⟩,
    C6_kelly_nonneg_zero_iff (1/2) 2 (by norm_num) (by norm_num) (by norm_num)⟩

/-- Core inequality: if `m` approximates `x` to within 1/2 and both are at
least about 100, then `m/(m+100)` is within 1/100 of `x/(x+100)`. -/
lemma ratio_close_fav (m x p : ℚ) (hm : 199/2 ≤ m) (hx : 100 ≤ x) (hmx : |m - x| ≤ 1/2)
    (hpx : p = x / (x + 100)) : |m / (m + 100) - p| ≤ 1/100 := by
  have hm100 : (0:ℚ) < m + 100 := by linarith
  have hx100 : (0:ℚ) < x + 100 := by linarith
  rw [hpx, div_sub_div _ _ (ne_of_gt hm100) (ne_of_gt hx100)]
  have hnum : m * (x + 100) - (m + 100) * x = 100 * (m - x) := by ring
  rw [hnum, abs_div, abs_of_pos (by positivity : (0:ℚ) < (m + 100) * (x + 100))]
  rw [div_le_iff₀ (by positivity)]
  rw [abs_mul, abs_of_pos (by norm_num : (0:ℚ) < 100)]
  nlinarith [mul_nonneg (by linarith : (0:ℚ) ≤ m - 199/2) (by linarith : (0:ℚ) ≤ x - 100),
    abs_nonneg (m - x)]

/-- Core inequality for the underdog side: if `m` approximates `x` to within
1/2 and both are at least about 100, then `100/(m+100)` is within 1/100 of
`100/(x+100)`. -/
lemma ratio_close_dog (m x p : ℚ) (hm : 199/2 ≤ m) (hx : 100 ≤ x) (hmx : |m - x| ≤ 1/2)
    (hpx : p = 100 / (x + 100)) : |100 / (m + 100) - p| ≤ 1/100 := by
  have hm100 : (0:ℚ) < m + 100 := by linarith
  have hx100 : (0:ℚ) < x + 100 := by linarith
  rw [hpx, div_sub_div _ _ (ne_of_gt hm100) (ne_of_gt hx100)]
  have hnum : 100 * (x + 100) - (m + 100) * 100 = 100 * (x - m) := by ring
  rw [hnum, abs_div, abs_of_pos (by positivity : (0:ℚ) < (m + 100) * (x + 100))]
  rw [div_le_iff₀ (by positivity)]
  rw [abs_mul, abs_of_pos (by norm_num : (0:ℚ) < 100)]
  have habs : |x - m| ≤ 1/2 := by rw [abs_sub_comm]; exact hmx
  nlinarith [mul_nonneg (by linarith : (0:ℚ) ≤ m - 199/2) (by linarith : (0:ℚ) ≤ x - 100),
    abs_nonneg (x - m)]

/-- Favorite branch of the conversion: for `1/2 ≤ p < 1` the odds are
`pyRound (-100*(p/(1-p)))`, an integer ≤ −100, and the probability implied by
those odds is within 1/100 of `p`. -/
lemma roundtrip_favorite (p : ℚ) (h1 : 1/2 ≤ p) (h2 : p < 1) :
    probability_to_american_odds p = .ok (pyRound (-100 * (p / (1 - p))))
    ∧ pyRound (-100 * (p / (1 - p))) ≤ -100
    ∧ |american_odds_to_probability (pyRound (-100 * (p / (1 - p)))) - p| ≤ 1/100 := by
  have hp0 : (0 : ℚ) < p := by linarith
  have h1p : (0 : ℚ) < 1 - p := by linarith
  have heq : probability_to_american_odds p = .ok (pyRound (-100 * (p / (1 - p)))) := by
    unfold probability_to_american_odds
    rw [if_neg (by push_neg; exact ⟨hp0, h2⟩), if_pos h1]
  have hb : |(pyRound (-100 * (p / (1 - p))) : ℚ) - (-100 * (p / (1 - p)))| ≤ 1/2 :=
    abs_pyRound_sub_le _
  have hx : (100 : ℚ) ≤ 100 * (p / (1 - p)) := by
    have h : (1 : ℚ) ≤ p / (1 - p) := by rw [le_div_iff₀ h1p]; linarith
    linarith
  have hnq : (pyRound (-100 * (p / (1 - p))) : ℚ) ≤ -(199/2) := by
    rw [abs_le] at hb
    obtain ⟨hb1, hb2⟩ := hb
    nlinarith
  have hn100 : pyRound (-100 * (p / (1 - p))) ≤ -100 := by
    have h99 : (pyRound (-100 * (p / (1 - p))) : ℚ) < ((-99 : ℤ) : ℚ) := by
      push_cast
      linarith
    have := Int.cast_lt.mp h99
    omega
  refine ⟨heq, hn100, ?_⟩
  have hbranch : american_odds_to_probability (pyRound (-100 * (p / (1 - p))))
      = |(pyRound (-100 * (p / (1 - p))) : ℚ)| / (|(pyRound (-100 * (p / (1 - p))) : ℚ)| + 100) := by
    unfold american_odds_to_probability
    rw [if_neg (by omega)]
  have hcast : (pyRound (-100 * (p / (1 - p))) : ℚ) < 0 := by
    have : (pyRound (-100 * (p / (1 - p))) : ℚ) ≤ ((-100 : ℤ) : ℚ) := by exact_mod_cast hn100
    push_cast at this
    linarith
  have habs : |(pyRound (-100 * (p / (1 - p))) : ℚ)| = -(pyRound (-100 * (p / (1 - p))) : ℚ) :=
    abs_of_neg hcast
  rw [hbranch, habs]
  apply ratio_close_fav _ (100 * (p / (1 - p))) p
  · linarith
  · exact hx
  · have : -(pyRound (-100 * (p / (1 - p))) : ℚ) - 100 * (p / (1 - p))
        = -((pyRound (-100 * (p / (1 - p))) : ℚ) - (-100 * (p / (1 - p)))) := by ring
    rw [this, abs_neg]
    exact hb
  · field_simp
    ring

/-- Underdog branch of the conversion: for `0 < p < 1/2` the odds are
`pyRound (100*((1-p)/p))`, an integer ≥ 100, and the probability implied by
those odds is within 1/100 of `p`. -/
lemma roundtrip_underdog (p : ℚ) (h1 : 0 < p) (h2 : p < 1/2) :
    probability_to_american_odds p = .ok (pyRound (100 * ((1 - p) / p)))
    ∧ 100 ≤ pyRound (100 * ((1 - p) / p))
    ∧ |american_odds_to_probability (pyRound (100 * ((1 - p) / p))) - p| ≤ 1/100 := by
  have hp1 : p < 1 := by linarith
  have heq : probability_to_american_odds p = .ok (pyRound (100 * ((1 - p) / p))) := by
    unfold probability_to_american_odds
    rw [if_neg (by push_neg; exact ⟨h1, hp1⟩), if_neg (by linarith)]
  have hb : |(pyRound (100 * ((1 - p) / p)) : ℚ) - 100 * ((1 - p) / p)| ≤ 1/2 :=
    abs_pyRound_sub_le _
  have hx : (100 : ℚ) < 100 * ((1 - p) / p) := by
    have h : (1 : ℚ) < (1 - p) / p := by rw [lt_div_iff₀ h1]; linarith
    linarith
  have hnq : (199/2 : ℚ) < (pyRound (100 * ((1 - p) / p)) : ℚ) := by
    rw [abs_le] at hb
    obtain ⟨hb1, hb2⟩ := hb
    linarith
  have hn100 : 100 ≤ pyRound (100 * ((1 - p) / p)) := by
    have h99 : ((99 : ℤ) : ℚ) < (pyRound (100 * ((1 - p) / p)) : ℚ) := by
      push_cast
      linarith
    have := Int.cast_lt.mp h99
    omega
  refine ⟨heq, hn100, ?_⟩
  have hbranch : american_odds_to_probability (pyRound (100 * ((1 - p) / p)))
      = 100 / ((pyRound (100 * ((1 - p) / p)) : ℚ) + 100) := by
    unfold american_odds_to_probability
    rw [if_pos (by omega)]
  rw [hbranch]
  apply ratio_close_dog _ (100 * ((1 - p) / p)) p
  · linarith
  · linarith
  · exact hb
  · field_simp
    ring

/-- C7: for every p strictly between 0 and 1, converting p to American odds
and back to a probability lands within 0.01 of p. -/
theorem C7_roundtrip_within_one_percent (p : ℚ) (h0 : 0 < p) (h1 : p < 1) :
    ∃ n : ℤ, probability_to_american_odds p = .ok n
      ∧ |american_odds_to_probability n - p| ≤ 1/100 := by
  rcases le_or_lt (1/2) p with h | h
  · obtain ⟨heq, _, hb⟩ := roundtrip_favorite p h h1
    exact ⟨_, heq, hb⟩
  · obtain ⟨heq, _, hb⟩ := roundtrip_underdog p h0 h
    exact ⟨_, heq, hb⟩

/-- C7 witness: the round-trip theorem evaluated at p = 3/4. -/
theorem C7_roundtrip_witness :
    ((0 : ℚ) < 3/4 ∧ (3 : ℚ)/4 < 1)
    ∧ ∃ n : ℤ, probability_to_american_odds (3/4) = .ok n
        ∧ |american_odds_to_probability n - 3/4| ≤ 1/100 :=
  ⟨⟨by norm_num, by norm_num⟩, C7_roundtrip_within_one_percent (3/4) (by norm_num) (by norm_num)⟩

/-- C10: for every p strictly between 0 and 1 the conversion succeeds and
returns an integer of magnitude at least 100: at most −100 when p ≥ 1/2 and at
least +100 when p < 1/2; in particular it is never 0. -/
theorem C10_odds_magnitude_at_least_100 (p : ℚ) (h0 : 0 < p) (h1 : p < 1) :
    ∃ n : ℤ, probability_to_american_odds p = .ok n
      ∧ (1/2 ≤ p → n ≤ -100) ∧ (p < 1/2 → 100 ≤ n) ∧ n ≠ 0 := by
  rcases le_or_lt (1/2) p with h | h
  · obtain ⟨heq, hm, _⟩ := roundtrip_favorite p h h1
    exact ⟨_, heq, fun _ => hm, fun hc => absurd h (not_le.mpr hc), by omega⟩
  · obtain ⟨heq, hm, _⟩ := roundtrip_underdog p h0 h
    exact ⟨_, heq, fun hc => absurd hc (not_le.mpr h), fun _ => hm, by omega⟩

/-- C10 witness: the magnitude theorem evaluated at p = 3/4. -/
theorem C10_odds_magnitude_witness :
    ((0 : ℚ) < 3/4 ∧ (3 : ℚ)/4 < 1)
    ∧ ∃ n : ℤ, probability_to_american_odds (3/4) = .ok n
        ∧ (1/2 ≤ (3 : ℚ)/4 → n ≤ -100) ∧ ((3 : ℚ)/4 < 1/2 → 100 ≤ n) ∧ n ≠ 0 :=
  ⟨⟨by norm_num, by norm_num⟩,
    C10_odds_magnitude_at_least_100 (3/4) (by norm_num) (by norm_num)⟩

/-! ### Opportunity detector (`sandbox.process_odds_data`) -/

/-- `sandbox.PolymarketOdds`: prices for a single game. -/
structure PolymarketOdds where
  away_team : String
  away_team_price : ℚ
  home_team : String
  home_team_price : ℚ
deriving DecidableEq

/-- `draftkings.DraftKingsElement`, reduced to the two pieces the detector
reads: the cleaned team name and the result of the fallible `moneyline()`
parse (`Optional[int]`). -/
structure DraftKingsElement where
  team : String
  moneyline : Option ℤ
deriving DecidableEq

instance instDecidableEqExcept {ε α : Type} [DecidableEq ε] [DecidableEq α] :
    DecidableEq (Except ε α)
  | .error e, .error f =>
    if h : e = f then .isTrue (by rw [h]) else .isFalse (fun hc => by cases hc; exact h rfl)
  | .error _, .ok _ => .isFalse (fun hc => by cases hc)
  | .ok _, .error _ => .isFalse (fun hc => by cases hc)
  | .ok a, .ok b =>
    if h : a = b then .isTrue (by rw [h]) else .isFalse (fun hc => by cases hc; exact h rfl)

/-- Python's `needle.lower() in haystack.lower()` substring test
(lower-casing a string is mapping `Char.toLower` over its characters). -/
def strContainsLower (haystack needle : String) : Bool :=
  decide ((needle.data.map Char.toLower) <:+: (haystack.data.map Char.toLower))

/-- `sandbox.find_team_polymarket_price`: walk the listings; for each listing
look the team up in `NBA_TEAM_TO_POLYMARKET_ABBREVIATION` (the dict raises
`KeyError` on a missing team, modelled by the `abbrMap` parameter returning
`none`), and match the abbreviation case-insensitively against the away then
home labels. Returns the matched side's price or `none`. -/
def find_team_polymarket_price (abbrMap : String → Option String) (team : String) :
    List PolymarketOdds → Except String (Option ℚ)
  | [] => .ok none
  | listing :: rest =>
    match abbrMap team with
    | none => .error "KeyError"
    | some abbr =>
      if strContainsLower listing.away_team abbr then .ok (some listing.away_team_price)
      else if strContainsLower listing.home_team abbr then .ok (some listing.home_team_price)
      else find_team_polymarket_price abbrMap team rest

/-- `sandbox.price_to_american_odds`: identical body to
`utils.probability_to_american_odds` (the source duplicates it). -/
def price_to_american_odds (p : ℚ) : Except String ℤ :=
  if ¬ (0 < p ∧ p < 1) then .error "ValueError"
  else if 1/2 ≤ p then .ok (pyRound (-100 * (p / (1 - p))))
  else .ok (pyRound (100 * ((1 - p) / p)))

/-- One row of the DataFrame `sandbox.process_odds_data` builds. -/
structure OppRow where
  team : String
  wager : Bool
  kellySize : ℚ
  diff : ℤ
  bookOdds : ℤ
  polymarketOdds : ℤ
  polymarketPrice : ℚ
deriving DecidableEq

/-- One iteration of the row-building loop of `sandbox.process_odds_data`:
`none` models a `continue` (row silently skipped), `Except.error` a raised
exception that aborts the batch. -/
def process_book_element (abbrMap : String → Option String)
    (polymarket_odds : List PolymarketOdds) (teams_list : Option (List String))
    (i : DraftKingsElement) : Except String (Option OppRow) :=
  -- `if teams_list and i.team not in teams_list: continue` (empty list is falsy)
  let skipTeam : Bool :=
    match teams_list with
    | some ts => !ts.isEmpty && !(ts.contains i.team)
    | none => false
  if skipTeam then .ok none
  else
    match i.moneyline with
    | none => .ok none          -- `assert book_odds_val` fails on None
    | some book_odds_val =>
      if book_odds_val = 0 then .ok none    -- `assert book_odds_val` fails on 0
      else do
        let priceOpt ← find_team_polymarket_price abbrMap i.team polymarket_odds
        match priceOpt with
        | none => .ok none
        | some price =>
          if price > 1 ∨ price = 0 then .ok none
          else do
            let price_as_odds ← price_to_american_odds price
            let kelly_size : ℚ :=
              if should_wager book_odds_val price_as_odds then
                kelly_criterion (american_odds_to_probability book_odds_val)
                  ((1 - price) / price)
              else 0
            .ok (some
              { team := i.team
                wager := should_wager book_odds_val price_as_odds
                kellySize := round2 (kelly_size * 100)
                diff := |book_odds_val - price_as_odds|
                bookOdds := book_odds_val
                polymarketOdds := price_as_odds
                polymarketPrice := price })

/-- The unsorted row list `sandbox.process_odds_data` accumulates, in book
input order. -/
def build_rows (abbrMap : String → Option String) (book_odds : List DraftKingsElement)
    (polymarket_odds : List PolymarketOdds) (teams_list : Option (List String)) :
    Except String (List OppRow) :=
  match book_odds with
  | [] => .ok []
  | i :: rest => do
    let r ← process_book_element abbrMap polymarket_odds teams_list i
    let rs ← build_rows abbrMap rest polymarket_odds teams_list
    match r with
    | none => .ok rs
    | some row => .ok (row :: rs)

/-- Ascending comparison on the "Kelly Size" column. -/
def kellyLe (a b : OppRow) : Prop := a.kellySize ≤ b.kellySize

instance : DecidableRel kellyLe := fun a b => inferInstanceAs (Decidable (a.kellySize ≤ b.kellySize))

instance : IsTotal OppRow kellyLe := ⟨fun a b => le_total a.kellySize b.kellySize⟩

instance : IsTrans OppRow kellyLe := ⟨fun _ _ _ => le_trans⟩

/-- `diffs.sort_values(by="Kelly Size", ascending=False)`: pandas computes a
stable ascending argsort of the key (numpy insertion sort at these sizes) and
reverses it for a descending sort. -/
def pandas_sort_desc (rows : List OppRow) : List OppRow :=
  (List.insertionSort kellyLe rows).reverse

/-- `sandbox.process_odds_data`: build the rows and sort them by "Kelly Size"
descending (an empty row list yields the empty DataFrame). -/
def process_odds_data (abbrMap : String → Option String)
    (book_odds : List DraftKingsElement) (polymarket_odds : List PolymarketOdds)
    (teams_list : Option (List String)) : Except String (List OppRow) := do
  let rows ← build_rows abbrMap book_odds polymarket_odds teams_list
  .ok (pandas_sort_desc rows)

/-- C2 (amended): every successful output of `process_odds_data` is sorted by
"Kelly Size" descending, and two rows with equal Kelly Size appear in *reverse*
input order: pandas' `sort_values(ascending=False)` reverses a stable
ascending argsort, so ties do not keep their relative input order. -/
theorem C2_sorted_desc_ties_reversed (abbrMap : String → Option String)
    (book_odds : List DraftKingsElement) (polymarket_odds : List PolymarketOdds)
    (teams_list : Option (List String)) (l r : List OppRow)
    (hl : process_odds_data abbrMap book_odds polymarket_odds teams_list = .ok l)
    (hr : build_rows abbrMap book_odds polymarket_odds teams_list = .ok r) :
    l.Sorted (fun a b => b.kellySize ≤ a.kellySize)
    ∧ ∀ x y : OppRow, x.kellySize = y.kellySize →
        List.Sublist [x, y] r → List.Sublist [y, x] l := by
  have hlr : l = pandas_sort_desc r := by
    unfold process_odds_data at hl
    rw [hr] at hl
    simp only [bind, Except.bind] at hl
    exact (Except.ok.inj hl).symm
  subst hlr
  constructor
  · unfold pandas_sort_desc
    rw [List.Sorted, List.pairwise_reverse]
    exact List.sorted_insertionSort kellyLe r
  · intro x y hxy hsub
    unfold pandas_sort_desc
    have h1 : List.Sublist [x, y] (List.insertionSort kellyLe r) :=
      List.pair_sublist_insertionSort (le_of_eq hxy) hsub
    simpa using h1.reverse

/-- Concrete two-team input for C2: both teams end with book odds +120 and a
matched market price 0.55, hence equal Kelly sizes (both 0). -/
def c2abbr : String → Option String :=
  fun t => if t = "Alpha" then some "ALP" else if t = "Beta" then some "BET" else none

def c2book : List DraftKingsElement := [⟨"Alpha", some 120⟩, ⟨"Beta", some 120⟩]

def c2poly : List PolymarketOdds :=
  [⟨"alp", 11/20, "zz1", 9/20⟩, ⟨"bet", 11/20, "zz2", 9/20⟩]

def c2rowA : OppRow := ⟨"Alpha", false, 0, 242, 120, -122, 11/20⟩

def c2rowB : OppRow := ⟨"Beta", false, 0, 242, 120, -122, 11/20⟩

/-- C2 counterexample: the book rows arrive in order Alpha, Beta; both produce
opportunities with the same kellyFraction (0), yet the emitted sequence is
Beta, Alpha — equal-key rows do not keep their relative input order, so the
claimed stability fails. -/
theorem C2_counterexample_ties_not_stable :
    c2book.map DraftKingsElement.team = ["Alpha", "Beta"]
    ∧ (process_odds_data c2abbr c2book c2poly none).toOption.map
        (fun l => l.map OppRow.team) = some ["Beta", "Alpha"]
    ∧ (process_odds_data c2abbr c2book c2poly none).toOption.map
        (fun l => l.map OppRow.kellySize) = some [0, 0] := by
  refine ⟨?_, ?_, ?_⟩ <;> with_unfolding_all decide

/-- C2 witness: the amended theorem applied to the concrete two-team input. -/
theorem C2_sorted_witness :
    process_odds_data c2abbr c2book c2poly none = .ok [c2rowB, c2rowA]
    ∧ build_rows c2abbr c2book c2poly none = .ok [c2rowA, c2rowB]
    ∧ ([c2rowB, c2rowA].Sorted (fun a b => b.kellySize ≤ a.kellySize)
        ∧ ∀ x y : OppRow, x.kellySize = y.kellySize →
            List.Sublist [x, y] [c2rowA, c2rowB] → List.Sublist [y, x] [c2rowB, c2rowA]) := by
  have h1 : process_odds_data c2abbr c2book c2poly none = .ok [c2rowB, c2rowA] := by
    with_unfolding_all decide
  have h2 : build_rows c2abbr c2book c2poly none = .ok [c2rowA, c2rowB] := by
    with_unfolding_all decide
  exact ⟨h1, h2, C2_sorted_desc_ties_reversed c2abbr c2book c2poly none _ _ h1 h2⟩

/-- C3: a matched market price of exactly 1 passes the skip guard
(`price > 1 or price == 0`), flows into `price_to_american_odds`, and raises
`ValueError`, aborting the whole batch — while a price above 1 or equal to 0
is silently skipped as the claim describes. -/
theorem C3_price_one_aborts_batch :
    process_odds_data (fun t => if t = "Gamma" then some "GAM" else none)
      [⟨"Gamma", some (-110)⟩] [⟨"gam", 1, "zz", 1/2⟩] none = .error "ValueError"
    ∧ process_odds_data (fun t => if t = "Gamma" then some "GAM" else none)
      [⟨"Gamma", some (-110)⟩] [⟨"gam", 3/2, "zz", 1/2⟩] none = .ok []
    ∧ process_odds_data (fun t => if t = "Gamma" then some "GAM" else none)
      [⟨"Gamma", some (-110)⟩] [⟨"gam", 0, "zz", 1/2⟩] none = .ok [] := by
  refine ⟨?_, ?_, ?_⟩ <;> with_unfolding_all decide

/-! ### Deduplication against the wager history (`sandbox.live`) -/

/-- A persisted wager row, reduced to the columns the deduplication step
reads: Team, Book Odds, Polymarket Price, Timestamp. -/
structure WagerRecord where
  team : String
  bookOdds : ℤ
  polymarketPrice : ℚ
  timestamp : ℚ
deriving DecidableEq

/-- Ascending comparison on the Timestamp column. -/
def tsLe (a b : WagerRecord) : Prop := a.timestamp ≤ b.timestamp

instance : DecidableRel tsLe := fun a b => inferInstanceAs (Decidable (a.timestamp ≤ b.timestamp))

instance : IsTotal WagerRecord tsLe := ⟨fun a b => le_total a.timestamp b.timestamp⟩

instance : IsTrans WagerRecord tsLe := ⟨fun _ _ _ => le_trans⟩

/-- `existing.sort_values("Timestamp").groupby("Team").last()`, looked at for
one team: the group's `.last()` row is the last row of that team in the
timestamp-sorted frame (the stable sort keeps equal timestamps in file
order). -/
def latest_wagers_entry (existing : List WagerRecord) (team : String) : Option WagerRecord :=
  ((List.insertionSort tsLe existing).filter (fun r => r.team == team)).getLast?

/-- The row filter of `sandbox.live`: an opportunity is dropped when the
latest wager for its team has the same Book Odds and the same Polymarket
Price (`latest_wagers` holds one row per team, so pandas' `any(...)` over it
is exactly a match against that team's row). -/
def filter_new (opps : List OppRow) (existing : List WagerRecord) : List OppRow :=
  opps.filter (fun row =>
    !(match latest_wagers_entry existing row.team with
      | some lw => lw.bookOdds == row.bookOdds && lw.polymarketPrice == row.polymarketPrice
      | none => false))

/-- One step of scanning the history in file order for the most recent record:
a later record replaces the accumulator whenever its timestamp is
greater *or equal* (so on ties the last record in file order wins). -/
def latest_step (acc : Option WagerRecord) (r : WagerRecord) : Option WagerRecord :=
  match acc with
  | none => some r
  | some b => if b.timestamp ≤ r.timestamp then some r else some b

/-- The deduplication reference as the spec words it: the single most recent
record per team by timestamp, ties broken by original file order with the
last one winning. -/
def spec_latest (existing : List WagerRecord) (team : String) : Option WagerRecord :=
  existing.foldl (fun acc r => if r.team == team then latest_step acc r else acc) none

/-- Does the latest history record for the row's team match the row exactly
(same Book Odds, same Polymarket Price)? -/
def dup_of_latest (existing : List WagerRecord) (row : OppRow) : Bool :=
  match spec_latest existing row.team with
  | some lw => lw.bookOdds == row.bookOdds && lw.polymarketPrice == row.polymarketPrice
  | none => false

/-- Unfolding equation: inserting before a dominating head. -/
lemma orderedInsert_cons_pos (x y : WagerRecord) (l : List WagerRecord) (h : tsLe x y) :
    List.orderedInsert tsLe x (y :: l) = x :: y :: l :=
  List.orderedInsert_of_le tsLe l h

/-- Unfolding equation: a head that strictly precedes `x` stays in front. -/
lemma orderedInsert_cons_neg (x y : WagerRecord) (l : List WagerRecord) (h : ¬ tsLe x y) :
    List.orderedInsert tsLe x (y :: l) = y :: List.orderedInsert tsLe x l := by
  rw [List.orderedInsert, if_neg h]

/-- Inserting into a list all of whose members dominate `x` puts `x` in
front. -/
lemma orderedInsert_eq_cons_of_forall (x : WagerRecord) (m : List WagerRecord)
    (h : ∀ z ∈ m, tsLe x z) : List.orderedInsert tsLe x m = x :: m := by
  cases m with
  | nil => rfl
  | cons b l => exact orderedInsert_cons_pos x b l (h b (List.mem_cons_self b l))

/-- Filtering commutes with `orderedInsert` into a sorted list. -/
lemma filter_orderedInsert (p : WagerRecord → Bool) (x : WagerRecord)
    (s : List WagerRecord) (hs : s.Sorted tsLe) :
    (List.orderedInsert tsLe x s).filter p =
      if p x then List.orderedInsert tsLe x (s.filter p) else s.filter p := by
  induction s with
  | nil =>
    cases hp : p x <;> simp [hp, List.filter_cons]
  | cons y t ih =>
    have hst : t.Sorted tsLe := hs.of_cons
    by_cases hxy : tsLe x y
    · rw [orderedInsert_cons_pos x y t hxy, List.filter_cons]
      cases hp : p x with
      | false => simp
      | true =>
        simp only [if_pos]
        have hall : ∀ z ∈ (y :: t).filter p, tsLe x z := by
          intro z hz
          have hz' := List.mem_of_mem_filter hz
          rcases List.mem_cons.mp hz' with h | h
          · exact h ▸ hxy
          · exact Trans.trans hxy (List.rel_of_sorted_cons hs z h)
        rw [orderedInsert_eq_cons_of_forall x _ hall]
    · rw [orderedInsert_cons_neg x y t hxy, List.filter_cons, List.filter_cons]
      rw [ih hst]
      cases hp : p x <;> cases hpy : p y <;> simp [hp, hpy]
      rw [if_neg hxy]

/-- Filtering commutes with the stable sort. -/
lemma filter_insertionSort (p : WagerRecord → Bool) (l : List WagerRecord) :
    (List.insertionSort tsLe l).filter p = List.insertionSort tsLe (l.filter p) := by
  induction l with
  | nil => rfl
  | cons x t ih =>
    rw [List.insertionSort,
      filter_orderedInsert p x _ (List.sorted_insertionSort tsLe t), ih, List.filter_cons]
    cases hp : p x <;> simp [List.insertionSort]

/-- Combining a seed record `x` with the outcome of a scan of the records
after it: the scan result wins unless its timestamp is strictly below the
seed's. -/
def seed_combine (x : WagerRecord) : Option WagerRecord → WagerRecord
  | none => x
  | some ly => if x.timestamp ≤ ly.timestamp then ly else x

lemma seed_combine_none (x : WagerRecord) : seed_combine x none = x := rfl

lemma seed_combine_some (x z : WagerRecord) :
    seed_combine x (some z) = if x.timestamp ≤ z.timestamp then z else x := rfl

/-- The last element after inserting `x` into a sorted list: the old last
element survives unless `x` strictly exceeds it. -/
lemma getLast?_orderedInsert (x : WagerRecord) (s : List WagerRecord) (hs : s.Sorted tsLe) :
    (List.orderedInsert tsLe x s).getLast? = some (seed_combine x s.getLast?) := by
  induction s with
  | nil => rfl
  | cons y t ih =>
    have hst : t.Sorted tsLe := hs.of_cons
    by_cases hxy : tsLe x y
    · rw [orderedInsert_cons_pos x y t hxy]
      cases hly : (y :: t).getLast? with
      | none => simp at hly
      | some ly =>
        have hmem : ly ∈ y :: t := by
          have h1 : (y :: t) ≠ [] := by simp
          have h2 := List.getLast?_eq_getLast (y :: t) h1
          rw [hly] at h2
          have h3 := Option.some.inj h2
          rw [h3]
          exact List.getLast_mem h1
        have hxly : x.timestamp ≤ ly.timestamp := by
          rcases List.mem_cons.mp hmem with h | h
          · exact h ▸ hxy
          · exact Trans.trans hxy (List.rel_of_sorted_cons hs ly h)
        rw [List.getLast?_cons_cons, hly, seed_combine_some, if_pos hxly]
    · rw [orderedInsert_cons_neg x y t hxy]
      cases t with
      | nil =>
        rw [show List.orderedInsert tsLe x [] = [x] from rfl]
        have hxy2 : ¬ x.timestamp ≤ y.timestamp := hxy
        rw [List.getLast?_cons_cons, List.getLast?_singleton, List.getLast?_singleton,
          seed_combine_some, if_neg hxy2]
      | cons z t' =>
        obtain ⟨b, m, hbm⟩ : ∃ b m, List.orderedInsert tsLe x (z :: t') = b :: m := by
          cases hoi : List.orderedInsert tsLe x (z :: t') with
          | nil =>
            have hlen := List.orderedInsert_length tsLe (z :: t') x
            rw [hoi] at hlen
            simp at hlen
          | cons b m => exact ⟨b, m, rfl⟩
        rw [hbm, List.getLast?_cons_cons, ← hbm, ih hst, List.getLast?_cons_cons]

lemma latest_step_none (r : WagerRecord) : latest_step none r = some r := rfl

lemma latest_step_some (b r : WagerRecord) :
    latest_step (some b) r = if b.timestamp ≤ r.timestamp then some r else some b := rfl

/-- Scanning with `latest_step` from a seeded accumulator. -/
lemma foldl_latest_step_some (m : List WagerRecord) : ∀ x : WagerRecord,
    m.foldl latest_step (some x) = some (seed_combine x (m.foldl latest_step none)) := by
  induction m with
  | nil => intro x; rfl
  | cons y t ih =>
    intro x
    rw [List.foldl_cons, List.foldl_cons, latest_step_none, latest_step_some]
    by_cases hxy : x.timestamp ≤ y.timestamp
    · rw [if_pos hxy, ih y]
      cases hnone : t.foldl latest_step none with
      | none =>
        rw [seed_combine_none, seed_combine_some x y, if_pos hxy]
      | some ly =>
        rw [seed_combine_some y ly]
        by_cases hyly : y.timestamp ≤ ly.timestamp
        · rw [if_pos hyly, seed_combine_some x ly, if_pos (le_trans hxy hyly)]
        · rw [if_neg hyly, seed_combine_some x y, if_pos hxy]
    · rw [if_neg hxy, ih x, ih y]
      cases hnone : t.foldl latest_step none with
      | none =>
        rw [seed_combine_none, seed_combine_none, seed_combine_some x y, if_neg hxy]
      | some ly =>
        rw [seed_combine_some y ly]
        by_cases hyly : y.timestamp ≤ ly.timestamp
        · rw [if_pos hyly]
        · rw [if_neg hyly, seed_combine_some x y, if_neg hxy, seed_combine_some x ly,
            if_neg (by push_neg at hxy hyly ⊢; linarith)]

/-- The last element of the timestamp-sorted list is the record a latest-wins
scan of the unsorted list produces. -/
lemma getLast?_insertionSort_eq_foldl (m : List WagerRecord) :
    (List.insertionSort tsLe m).getLast? = m.foldl latest_step none := by
  induction m with
  | nil => rfl
  | cons x t ih =>
    rw [List.insertionSort, List.foldl_cons]
    rw [show latest_step none x = some x from rfl]
    rw [getLast?_orderedInsert x _ (List.sorted_insertionSort tsLe t), ih,
      foldl_latest_step_some t x]

/-- Folding over a filtered list is folding with a guarded step. -/
lemma foldl_filter_guard {α β : Type} (p : α → Bool) (f : β → α → β) (l : List α) (b : β) :
    (l.filter p).foldl f b = l.foldl (fun acc a => if p a then f acc a else acc) b := by
  induction l generalizing b with
  | nil => rfl
  | cons x t ih =>
    rw [List.filter_cons]
    cases hp : p x <;> simp [hp, List.foldl_cons, ih]

/-- C4: the deduplication step drops an opportunity exactly when the most
recent history record for its team — most recent by timestamp, equal
timestamps resolved so the later record in file order wins — has identical
Book Odds and identical Polymarket Price; all other opportunities pass
through unchanged, and with an empty history everything passes. -/
theorem C4_dedup_drops_exact_latest_match (existing : List WagerRecord) (opps : List OppRow) :
    (∀ t, latest_wagers_entry existing t = spec_latest existing t)
    ∧ filter_new opps existing = opps.filter (fun row => ! dup_of_latest existing row)
    ∧ filter_new opps [] = opps := by
  have hmain : ∀ t, latest_wagers_entry existing t = spec_latest existing t := by
    intro t
    unfold latest_wagers_entry spec_latest
    rw [filter_insertionSort, getLast?_insertionSort_eq_foldl,
      foldl_filter_guard (fun r => r.team == t) latest_step existing none]
  refine ⟨hmain, ?_, ?_⟩
  · unfold filter_new
    apply List.filter_congr
    intro row _
    rw [hmain row.team]
    rfl
  · exact List.filter_eq_self.mpr (fun a _ => rfl)

/-! ### Performance analysis (`analysis.py`) -/

/-- `analysis.odds_to_price`: the same conversion as
`american_odds_to_probability`, duplicated in `analysis.py`. -/
def odds_to_price (american_odds : ℤ) : ℚ :=
  if american_odds > 0 then 100 / ((american_odds : ℚ) + 100)
  else |(american_odds : ℤ)| / ((|(american_odds : ℤ)| : ℚ) + 100)

/-- A row of the persisted wagers CSV as `analysis.py` reads it. -/
structure LedgerRow where
  team : String
  kellySize : ℚ
  polymarketOdds : ℤ
  polymarketPrice : ℚ
  timestamp : ℚ
deriving DecidableEq

/-- The outcomes store `{date: {team: 0|1}}`, with a calendar date modelled as
its day index (the number of whole days since the epoch, which is what
`datetime.fromtimestamp(ts).strftime("%Y-%m-%d")` determines). -/
abbrev Outcomes := List (ℤ × List (String × ℤ))

/-- The calendar date (day index) of a POSIX timestamp. -/
def dateOf (ts : ℚ) : ℤ := ⌊ts / 86400⌋

/-- `outcomes[date][team]`, with `none` for a `KeyError` at either level. -/
def lookup_outcome (outcomes : Outcomes) (d : ℤ) (team : String) : Option ℤ :=
  match outcomes.lookup d with
  | none => none
  | some m => m.lookup team

/-- `analysis.row_to_outcome`: look the team up under the timestamp's date;
on a `KeyError` retry under the date of (timestamp − 1 hour); a second miss
raises `KeyError`. -/
def row_to_outcome (outcomes : Outcomes) (r : LedgerRow) : Except String ℤ :=
  match lookup_outcome outcomes (dateOf r.timestamp) r.team with
  | some v => .ok v
  | none =>
    match lookup_outcome outcomes (dateOf (r.timestamp - 3600)) r.team with
    | some v => .ok v
    | none => .error "KeyError"

/-- `analysis.team_ignore_list` (empty in the source). -/
def team_ignore_list : List String := []

/-- A formatted row: the ledger columns plus the derived `price` and
`outcome` columns. -/
structure SimRow where
  team : String
  kellySize : ℚ
  polymarketOdds : ℤ
  polymarketPrice : ℚ
  timestamp : ℚ
  price : ℚ
  outcome : ℤ
deriving DecidableEq

/-- Row-by-row body of `analysis.formatted_df`: add
`price = odds_to_price(Polymarket Odds)` and `outcome = row_to_outcome(row)`;
a `KeyError` from the outcome lookup propagates. -/
def formatted_rows (outcomes : Outcomes) : List LedgerRow → Except String (List SimRow)
  | [] => .ok []
  | r :: rest => do
    let outcome ← row_to_outcome outcomes r
    let rs ← formatted_rows outcomes rest
    .ok ({ team := r.team, kellySize := r.kellySize, polymarketOdds := r.polymarketOdds,
           polymarketPrice := r.polymarketPrice, timestamp := r.timestamp,
           price := odds_to_price r.polymarketOdds, outcome := outcome } :: rs)

/-- `analysis.formatted_df` with the default `intervals=None`: drop ignored
teams, then derive the `price` and `outcome` columns. -/
def formatted_df (outcomes : Outcomes) (ledger : List LedgerRow) :
    Except String (List SimRow) :=
  formatted_rows outcomes (ledger.filter (fun r => !(team_ignore_list.contains r.team)))

/-- Ascending comparison on the Timestamp column of formatted rows. -/
def simTsLe (a b : SimRow) : Prop := a.timestamp ≤ b.timestamp

instance : DecidableRel simTsLe := fun a b => inferInstanceAs (Decidable (a.timestamp ≤ b.timestamp))

instance : IsTotal SimRow simTsLe := ⟨fun a b => le_total a.timestamp b.timestamp⟩

instance : IsTrans SimRow simTsLe := ⟨fun _ _ _ => le_trans⟩

/-- The running-P/L loop of `analysis.strategy_sim` for one strategy: for each
row, add the stake when `outcome == 1`, always subtract stake × price, and
record the running total. -/
def strategy_pl (strat : SimRow → ℚ) : ℚ → List SimRow → List ℚ
  | _, [] => []
  | acc, r :: rs =>
    let acc2 := (if r.outcome = 1 then acc + strat r else acc) - strat r * r.price
    acc2 :: strategy_pl strat acc2 rs

/-- `analysis.strategy_sim` for one strategy: sort by Timestamp ascending and
run the P/L loop from 0. -/
def strategy_sim (df : List SimRow) (strat : SimRow → ℚ) : List ℚ :=
  strategy_pl strat 0 (List.insertionSort simTsLe df)

/-- One row's net contribution to the running P/L. -/
def contrib (strat : SimRow → ℚ) (r : SimRow) : ℚ :=
  (if r.outcome = 1 then strat r else 0) - strat r * r.price

lemma strategy_pl_cons (strat : SimRow → ℚ) (acc : ℚ) (r : SimRow) (rs : List SimRow) :
    strategy_pl strat acc (r :: rs) =
      ((if r.outcome = 1 then acc + strat r else acc) - strat r * r.price)
        :: strategy_pl strat
            ((if r.outcome = 1 then acc + strat r else acc) - strat r * r.price) rs := rfl

lemma strategy_pl_step (strat : SimRow → ℚ) (acc : ℚ) (r : SimRow) :
    (if r.outcome = 1 then acc + strat r else acc) - strat r * r.price
      = acc + contrib strat r := by
  unfold contrib
  split_ifs <;> ring

/-- The running-P/L loop emits, at position k, the seed plus the sum of the
contributions of the first k+1 rows. -/
lemma strategy_pl_eq_prefix_sums (strat : SimRow → ℚ) (s : List SimRow) : ∀ acc : ℚ,
    strategy_pl strat acc s =
      (List.range s.length).map
        (fun k => acc + ((s.take (k+1)).map (contrib strat)).sum) := by
  induction s with
  | nil => intro acc; rfl
  | cons r rs ih =>
    intro acc
    rw [strategy_pl_cons, strategy_pl_step, ih (acc + contrib strat r)]
    rw [List.length_cons, List.range_succ_eq_map, List.map_cons, List.map_map]
    congr 1
    · simp [List.sum_cons]
    · apply List.map_congr_left
      intro k _
      simp only [Function.comp_apply, List.take_succ_cons, List.map_cons, List.sum_cons]
      ring

/-- C8 counterexample: a wager recorded from market price 0.55 persists odds
−122; the formatted frame charges `odds_to_price(−122) = 61/111 ≈ 0.5495`
per unit stake — not the recorded Polymarket Price 0.55 — so a 1-unit winning
bet emits a running P/L of 50/111, while the claim's
stake × recorded-market-price rule would emit 9/20. -/
theorem C8_counterexample_price_from_rounded_odds :
    formatted_df [((0 : ℤ), [("T", (1 : ℤ))])]
        [⟨"T", 1, -122, 11/20, 0⟩]
      = .ok [⟨"T", 1, -122, 11/20, 0, 61/111, 1⟩]
    ∧ odds_to_price (-122) = 61/111
    ∧ ((61 : ℚ)/111 ≠ 11/20)
    ∧ strategy_sim [⟨"T", 1, -122, 11/20, 0, 61/111, 1⟩] (fun r => r.kellySize) = [50/111]
    ∧ ((1 : ℚ) - 1 * (11/20) = 9/20)
    ∧ ((50 : ℚ)/111 ≠ 9/20) := by
  refine ⟨?_, ?_, ?_, ?_, ?_, ?_⟩ <;> with_unfolding_all decide

/-- C8 (amended): the simulation iterates the formatted ledger in ascending
timestamp order (a permutation of the input sorted by Timestamp), and its
k-th emitted value is the sum over the first k+1 rows of
(stake if win else 0) − stake × price — where the price charged is
`odds_to_price` of the recorded Polymarket Odds column, a reconstruction from
the rounded odds, not the recorded Polymarket Price column. -/
theorem C8_strategy_sim_running_pl (df : List SimRow) (strat : SimRow → ℚ)
    (outcomes : Outcomes) (ledger : List LedgerRow) :
    (List.insertionSort simTsLe df).Sorted simTsLe
    ∧ List.Perm (List.insertionSort simTsLe df) df
    ∧ strategy_sim df strat =
        (List.range df.length).map
          (fun k => (((List.insertionSort simTsLe df).take (k+1)).map (contrib strat)).sum)
    ∧ (formatted_df outcomes ledger).map (fun l => l.map SimRow.price)
        = (formatted_df outcomes ledger).map
            (fun l => l.map (fun r => odds_to_price r.polymarketOdds)) := by
  have hprice : ∀ (l : List LedgerRow) (s : List SimRow),
      formatted_rows outcomes l = .ok s → ∀ r ∈ s, r.price = odds_to_price r.polymarketOdds := by
    intro l
    induction l with
    | nil =>
      intro s hs r hr
      cases Except.ok.inj hs
      simp at hr
    | cons a t ih =>
      intro s hs r hr
      unfold formatted_rows at hs
      cases hoc : row_to_outcome outcomes a with
      | error e => rw [hoc] at hs; exact absurd hs (by simp [bind, Except.bind])
      | ok v =>
        rw [hoc] at hs
        cases hrest : formatted_rows outcomes t with
        | error e =>
          rw [hrest] at hs
          exact absurd hs (by simp [bind, Except.bind])
        | ok rs =>
          rw [hrest] at hs
          simp only [bind, Except.bind] at hs
          cases Except.ok.inj hs
          rcases List.mem_cons.mp hr with h | h
          · rw [h]
          · exact ih rs hrest r h
  refine ⟨List.sorted_insertionSort simTsLe df, List.perm_insertionSort simTsLe df, ?_, ?_⟩
  · unfold strategy_sim
    rw [strategy_pl_eq_prefix_sums, List.length_insertionSort]
    apply List.map_congr_left
    intro k _
    rw [zero_add]
  · unfold formatted_df
    cases hfd : formatted_rows outcomes
        (ledger.filter (fun r => !(team_ignore_list.contains r.team))) with
    | error e => rfl
    | ok s =>
      simp only [Except.map]
      congr 1
      exact List.map_congr_left (fun r hr => hprice _ s hfd r hr)

/-- C9 counterexample: a ledger row timestamped at noon of day 1 whose team is
missing under day 1 but present under day 0 (the previous calendar day): the
lookup raises `KeyError` because the fallback recomputes the date of
(timestamp − 1 hour), which is still day 1 — it does not consult the previous
calendar day. -/
theorem C9_counterexample_retry_same_day :
    row_to_outcome [((0 : ℤ), [("T", (1 : ℤ))]), ((1 : ℤ), [])]
        ⟨"T", 0, 0, 0, 129600⟩ = .error "KeyError"
    ∧ lookup_outcome [((0 : ℤ), [("T", (1 : ℤ))]), ((1 : ℤ), [])]
        (dateOf (129600 : ℚ) - 1) "T" = some 1
    ∧ lookup_outcome [((0 : ℤ), [("T", (1 : ℤ))]), ((1 : ℤ), [])]
        (dateOf (129600 : ℚ)) "T" = none := by
  refine ⟨?_, ?_, ?_⟩ <;> with_unfolding_all decide

/-- C9 (amended): on a primary-date key miss the lookup retries exactly once,
against the calendar date of (timestamp − 1 hour); that date is the previous
calendar day precisely when the timestamp lies in the first hour of its day,
and is the same date otherwise (in which case the retry necessarily misses
again). -/
theorem C9_fallback_is_one_hour_back (outcomes : Outcomes) (r : LedgerRow)
    (hmiss : lookup_outcome outcomes (dateOf r.timestamp) r.team = none) :
    (row_to_outcome outcomes r =
      match lookup_outcome outcomes (dateOf (r.timestamp - 3600)) r.team with
      | some v => .ok v
      | none => .error "KeyError")
    ∧ (dateOf (r.timestamp - 3600) = dateOf r.timestamp - 1
        ↔ r.timestamp < 86400 * (dateOf r.timestamp : ℚ) + 3600)
    ∧ (¬ r.timestamp < 86400 * (dateOf r.timestamp : ℚ) + 3600
        → dateOf (r.timestamp - 3600) = dateOf r.timestamp) := by
  have hfloor : (dateOf r.timestamp : ℚ) ≤ r.timestamp / 86400 := Int.floor_le _
  have hceil : r.timestamp / 86400 < (dateOf r.timestamp : ℚ) + 1 := Int.lt_floor_add_one _
  have hlow : 86400 * (dateOf r.timestamp : ℚ) ≤ r.timestamp := by
    rw [le_div_iff₀ (by norm_num : (0:ℚ) < 86400)] at hfloor
    linarith
  have hhigh : r.timestamp < 86400 * ((dateOf r.timestamp : ℚ) + 1) := by
    rw [div_lt_iff₀ (by norm_num : (0:ℚ) < 86400)] at hceil
    linarith
  refine ⟨?_, ?_, ?_⟩
  · unfold row_to_outcome
    rw [hmiss]
  · constructor
    · intro heq
      have := Int.floor_le ((r.timestamp - 3600) / 86400)
      have hlt : (r.timestamp - 3600) / 86400 < (dateOf (r.timestamp - 3600) : ℚ) + 1 :=
        Int.lt_floor_add_one _
      rw [heq] at hlt
      rw [div_lt_iff₀ (by norm_num : (0:ℚ) < 86400)] at hlt
      push_cast at hlt
      linarith
    · intro hts
      show ⌊(r.timestamp - 3600) / 86400⌋ = dateOf r.timestamp - 1
      rw [Int.floor_eq_iff]
      constructor
      · push_cast
        rw [le_div_iff₀ (by norm_num : (0:ℚ) < 86400)]
        linarith
      · push_cast
        rw [div_lt_iff₀ (by norm_num : (0:ℚ) < 86400)]
        linarith
  · intro hts
    push_neg at hts
    show ⌊(r.timestamp - 3600) / 86400⌋ = dateOf r.timestamp
    rw [Int.floor_eq_iff]
    constructor
    · rw [le_div_iff₀ (by norm_num : (0:ℚ) < 86400)]
      linarith
    · rw [div_lt_iff₀ (by norm_num : (0:ℚ) < 86400)]
      linarith

/-- C9 witness: the amended theorem at a row timestamped one hour past
midnight of day 1, with an outcomes store that misses that team everywhere. -/
theorem C9_fallback_witness :
    (lookup_outcome [((0 : ℤ), [("T", (1 : ℤ))])]
        (dateOf ((⟨"T", 0, 0, 0, 90000⟩ : LedgerRow).timestamp)) "T" = none)
    ∧ ((row_to_outcome [((0 : ℤ), [("T", (1 : ℤ))])] ⟨"T", 0, 0, 0, 90000⟩ =
        match lookup_outcome [((0 : ℤ), [("T", (1 : ℤ))])]
            (dateOf ((⟨"T", 0, 0, 0, 90000⟩ : LedgerRow).timestamp - 3600)) "T" with
        | some v => .ok v
        | none => .error "KeyError")
      ∧ (dateOf ((⟨"T", 0, 0, 0, 90000⟩ : LedgerRow).timestamp - 3600)
            = dateOf ((⟨"T", 0, 0, 0, 90000⟩ : LedgerRow).timestamp) - 1
          ↔ (⟨"T", 0, 0, 0, 90000⟩ : LedgerRow).timestamp
              < 86400 * (dateOf ((⟨"T", 0, 0, 0, 90000⟩ : LedgerRow).timestamp) : ℚ) + 3600)
      ∧ (¬ (⟨"T", 0, 0, 0, 90000⟩ : LedgerRow).timestamp
              < 86400 * (dateOf ((⟨"T", 0, 0, 0, 90000⟩ : LedgerRow).timestamp) : ℚ) + 3600
          → dateOf ((⟨"T", 0, 0, 0, 90000⟩ : LedgerRow).timestamp - 3600)
              = dateOf ((⟨"T", 0, 0, 0, 90000⟩ : LedgerRow).timestamp))) :=
  ⟨by with_unfolding_all decide,
    C9_fallback_is_one_hour_back [((0 : ℤ), [("T", (1 : ℤ))])] ⟨"T", 0, 0, 0, 90000⟩
      (by with_unfolding_all decide)⟩

end Polyarb
